import Mathlib

/-!
Verification of the streak calculation engine of `src/lib/utils/streaks.ts`.

The engine works on calendar days represented in the source as `YYYY-MM-DD`
strings obtained by `new Date(x).toISOString().split("T")[0]`, i.e. the UTC
calendar day containing the instant `x`.  Lexicographic order on such strings
coincides with chronological order, so the embedding represents a calendar day
by its day number (an `Int`, days since the epoch) and a timestamp by its
number of milliseconds since the epoch (an `Int`).  Under this representation:

* `toISOString` day truncation is floor division by 86400000 (ms per day);
* the descending `localeCompare` sort of day strings is a descending sort of
  day numbers;
* `addDays` (via `setDate`/`getDate`, calendar arithmetic in a fixed reference
  frame with no local-time discontinuities, which the spec assumes in section
  4.3) is addition of day numbers.

The source derives "today" from the ambient clock inside the functions; as the
spec requires (section 5 and section 9), the reference day is threaded here as
an explicit parameter `today` so the functions are deterministic.
-/

/-- Minimal entry type used by the streak engine: `{ _id: string; createdAt: string }`.
`createdAt` is the creation timestamp in milliseconds since the epoch. -/
structure JournalEntry where
  _id : String
  createdAt : Int
deriving DecidableEq, Repr

/-- Result record of `calculateStreaks`. -/
structure StreakData where
  currentStreak : Nat
  longestStreak : Nat
  lastEntryDate : Option Int
  streakDates : List Int
deriving DecidableEq, Repr

/-- Result of `calculateCurrentStreak`: `{ streak, dates }`. -/
structure CurrentStreakResult where
  streak : Nat
  dates : List Int
deriving DecidableEq, Repr

/-- Result of `getDaysUntilNextMilestone`: `{ daysUntil, milestone }`. -/
structure MilestoneResult where
  daysUntil : Int
  milestone : Nat
deriving DecidableEq, Repr

/-- `toDateString`: `new Date(t).toISOString().split("T")[0]` — the UTC calendar
day containing instant `t` (milliseconds), i.e. floor division by 86400000
(`/` on `Int` is Euclidean division, which is floor division for a positive
divisor). -/
def toDateString (t : Int) : Int :=
  t / 86400000

/-- `getUniqueDates`: `[...new Set(entries.map(e => toDateString(e.createdAt)))]
.sort((a, b) => b.localeCompare(a))` — the distinct entry days sorted newest
first.  JS `Set` keeps first occurrences while `List.dedup` keeps last ones,
but after sorting the distinct values the result is the same list. -/
def getUniqueDates (entries : List JournalEntry) : List Int :=
  ((entries.map (fun e => toDateString e.createdAt)).dedup).insertionSort (· ≥ ·)

/-- `addDays`: shifts a calendar day by `days` (signed) calendar days via
`setDate`/`getDate`; on day numbers in a fixed reference frame this is
addition. -/
def addDays (date : Int) (days : Int) : Int :=
  date + days

/-- `daysBetween`: `Math.floor((Date(date1) - Date(date2)) / 86400000)` on the
millisecond values of two day-truncated dates. -/
def daysBetween (date1 date2 : Int) : Int :=
  (date1 * 86400000 - date2 * 86400000) / 86400000

/-- JS `Array.prototype.findIndex`, with `none` for the `-1` case. -/
def findIdxOrNone (p : Int → Bool) : List Int → Option Nat
  | [] => none
  | a :: l => if p a then some 0 else (findIdxOrNone p l).map (· + 1)

/-- `calculateCurrentStreak`: walks backward from today (or yesterday when
there is no entry today) through the candidate days
`start, start-1, …` (`entryDates.length` of them) and counts the leading
candidates present in `entryDates`.  `today` is the injected reference day. -/
def calculateCurrentStreak (entryDates : List Int) (today : Int) : CurrentStreakResult :=
  let yesterday := addDays today (-1)
  let hasEntryToday := entryDates.contains today
  let startDate := if hasEntryToday then today else yesterday
  let consecutiveDates := (List.range entryDates.length).map (fun i : Nat => addDays startDate (-(i : Int)))
  let streakDates := consecutiveDates.filter (fun d => entryDates.contains d)
  let streakEndIndex := findIdxOrNone (fun d => !(entryDates.contains d)) consecutiveDates
  let streak := match streakEndIndex with
    | none => streakDates.length
    | some i => i
  { streak := streak, dates := (streakDates.take streak).reverse }

/-- One step of the `reduce` in `findLongestStreak`: on a consecutive pair the
last accumulated run length is bumped (`acc[acc.length-1] = (acc[acc.length-1]
|| 1) + 1`), otherwise a fresh run of length 1 is pushed. -/
def streakStep (acc : List Nat) (isConsecutive : Bool) : List Nat :=
  if isConsecutive then
    acc.dropLast ++ [(match acc.getLast? with
      | some l => if l = 0 then 1 else l
      | none => 1) + 1]
  else
    acc ++ [1]

/-- The `isConsecutive` flags of `datePairs` in `findLongestStreak`:
`entryDates.slice(1).map((date, i) => daysBetween(entryDates[i], date) === 1)`.
The `date`/`prevDate` fields of the source objects are never read by the
`reduce`, so only the flag is kept. -/
def datePairsFlags (entryDates : List Int) : List Bool :=
  ((entryDates.drop 1).zip entryDates).map (fun p => daysBetween p.2 p.1 == 1)

/-- `findLongestStreak`: groups the consecutive-pair flags into run lengths
(`reduce` with initial accumulator `[1]`) and returns `Math.max(...streaks)`.
Since every accumulated run length is at least 1, `Math.max` over the nonempty
run list equals `foldl Nat.max 0`. -/
def findLongestStreak (entryDates : List Int) : Nat :=
  if entryDates.isEmpty then 0
  else ((datePairsFlags entryDates).foldl streakStep [1]).foldl Nat.max 0

/-- `calculateStreaks`: the `StreakData` for an entry collection.  The empty
(or absent, `!entries?.length`) collection short-circuits to the zero record.
`today` is the injected reference day. -/
def calculateStreaks (entries : List JournalEntry) (today : Int) : StreakData :=
  if entries.isEmpty then
    { currentStreak := 0, longestStreak := 0, lastEntryDate := none, streakDates := [] }
  else
    let entryDates := getUniqueDates entries
    let result := calculateCurrentStreak entryDates today
    { currentStreak := result.streak
      longestStreak := findLongestStreak entryDates
      lastEntryDate := entryDates.head?
      streakDates := result.dates }

/-- `isStreakActive`: true when some entry day (re-derived from the raw
entries, without dedup or sort) is today or yesterday.  `today` is the
injected reference day. -/
def isStreakActive (entries : List JournalEntry) (today : Int) : Bool :=
  if entries.isEmpty then false
  else
    let yesterday := addDays today (-1)
    let entryDates := entries.map (fun e => toDateString e.createdAt)
    entryDates.contains today || entryDates.contains yesterday

/-- The fixed milestone sequence of `getDaysUntilNextMilestone`. -/
def milestones : List Nat :=
  [5, 10, 25, 50, 100, 200, 365, 500, 1000]

/-- `getDaysUntilNextMilestone`: first fixed milestone strictly above the
current streak, falling back to `Math.ceil(currentStreak / 100) * 100` (for a
nonnegative integer `n` that is `((n + 99) / 100) * 100` in `Nat` arithmetic).
The claims restrict attention to `currentStreak ≥ 0`, so the input is a `Nat`;
`daysUntil` is signed as in the source. -/
def getDaysUntilNextMilestone (currentStreak : Nat) : MilestoneResult :=
  let nextMilestone :=
    (milestones.find? (fun m => currentStreak < m)).getD
      (((currentStreak + 99) / 100) * 100)
  { daysUntil := (nextMilestone : Int) - (currentStreak : Int), milestone := nextMilestone }

/-! ## Specification-side definitions

These follow the wording of the spec, to be compared with the source
definitions above. -/

/-- Modelled from the spec, section 4.4 steps 3–4: walk backward from `d` one
day at a time for at most `fuel` steps, counting the leading days present in
`ds` and stopping at the first absent one. -/
def specWalkAux (ds : List Int) : Int → Nat → Nat
  | _, 0 => 0
  | d, fuel + 1 => if ds.contains d then specWalkAux ds (d - 1) fuel + 1 else 0

/-- The spec's backward walk from `start`, bounded by `ds.length` steps (the
bound of section 4.4 step 3). -/
def specWalk (ds : List Int) (start : Int) : Nat :=
  specWalkAux ds start ds.length

/-- Modelled from the spec, section 4.5: the maximum run length of
calendar-consecutive days anywhere in `ds` — the greatest number of days one
can walk down from some member of `ds` staying inside `ds`. -/
def specLongestRun (ds : List Int) : Nat :=
  (ds.map (fun s => specWalk ds s)).foldr Nat.max 0

/-- Modelled from the spec, section 3: the most recent day of a day list
(`none` for the empty list). -/
def mostRecentDay : List Int → Option Int
  | [] => none
  | d :: rest =>
    match mostRecentDay rest with
    | none => some d
    | some m => some (max d m)

/-- The most recent calendar day with an entry (`lastEntryDate` of the spec,
section 3): maximum of the entry days, `none` iff there are no entries. -/
def mostRecentEntryDay (entries : List JournalEntry) : Option Int :=
  mostRecentDay (entries.map (fun e => toDateString e.createdAt))

/-- Modelled from the spec, section 4.7: the first element of a milestone list
strictly greater than `n`. -/
def firstAbove (n : Nat) : List Nat → Option Nat
  | [] => none
  | m :: ms => if n < m then some m else firstAbove n ms

/-- A day list is ascending and contiguous: each element is the previous one
plus one calendar day (spec, section 8). -/
def ascendingContiguous : List Int → Bool
  | [] => true
  | [_] => true
  | a :: b :: t => (b == a + 1) && ascendingContiguous (b :: t)

/-- A day list is strictly descending (each element greater than the next):
the shape of `getUniqueDates` output assumed by the spec's contracts. -/
def strictDesc : List Int → Bool
  | [] => true
  | [_] => true
  | a :: b :: t => (b < a) && strictDesc (b :: t)

/-- The UTC instant (milliseconds) of wall-clock minute `m` of local calendar
day `d` in a time zone `o` minutes behind UTC. -/
def localInstant (d m o : Int) : Int :=
  (d * 1440 + m + o) * 60000

/-! ## Proof-side helper definitions -/

/-- Tail-recursive maximum-run computation over the consecutive-pair flags:
`cur` is the length of the current run, `best` the maximum seen so far. -/
def mrAux : Nat → Nat → List Bool → Nat
  | _, best, [] => best
  | cur, best, b :: bs =>
    let c := if b then cur + 1 else 1
    mrAux c (Nat.max best c) bs

/-- Length of the initial run of consecutive days (each exactly one day below
the previous) of a day list. -/
def headRun : List Int → Nat
  | [] => 0
  | [_] => 1
  | a :: b :: t => if a - b = 1 then headRun (b :: t) + 1 else 1

/-- Maximum consecutive-run length over all suffixes of a day list. -/
def maxRunRec : List Int → Nat
  | [] => 0
  | a :: t => Nat.max (headRun (a :: t)) (maxRunRec t)

/-! ## Basic lemmas -/

theorem daysBetween_eq (a b : Int) : daysBetween a b = a - b := by
  unfold daysBetween
  omega

theorem contains_iff_mem {l : List Int} {a : Int} : l.contains a = true ↔ a ∈ l :=
  List.elem_iff

theorem findIdxOrNone_cons_true {p : Int → Bool} {a : Int} {l : List Int}
    (h : p a = true) : findIdxOrNone p (a :: l) = some 0 := by
  simp [findIdxOrNone, h]

theorem findIdxOrNone_cons_false {p : Int → Bool} {a : Int} {l : List Int}
    (h : p a = false) : findIdxOrNone p (a :: l) = (findIdxOrNone p l).map (· + 1) := by
  simp [findIdxOrNone, h]

theorem findIdxOrNone_none {p : Int → Bool} :
    ∀ {l : List Int}, findIdxOrNone p l = none → ∀ x ∈ l, p x = false := by
  intro l
  induction l with
  | nil => intro _ x hx; cases hx
  | cons a t ih =>
    intro h x hx
    cases hpa : p a with
    | true => rw [findIdxOrNone_cons_true hpa] at h; cases h
    | false =>
      rw [findIdxOrNone_cons_false hpa] at h
      rcases List.mem_cons.mp hx with rfl | hxt
      · exact hpa
      · exact ih (Option.map_eq_none'.mp h) x hxt

theorem findIdxOrNone_some {p : Int → Bool} :
    ∀ {l : List Int} {i : Nat}, findIdxOrNone p l = some i →
      ∃ l₁ a l₂, l = l₁ ++ a :: l₂ ∧ l₁.length = i ∧ (∀ x ∈ l₁, p x = false) ∧ p a = true := by
  intro l
  induction l with
  | nil => intro i h; cases h
  | cons b t ih =>
    intro i h
    cases hpb : p b with
    | true =>
      rw [findIdxOrNone_cons_true hpb] at h
      refine ⟨[], b, t, by simp, ?_, by simp, hpb⟩
      cases h
      rfl
    | false =>
      rw [findIdxOrNone_cons_false hpb] at h
      rcases hmap : findIdxOrNone p t with _ | j
      · rw [hmap] at h; cases h
      · rw [hmap] at h
        simp only [Option.map_some'] at h
        have hji : j + 1 = i := by injection h
        rcases ih hmap with ⟨l₁, a, l₂, rfl, hlen, hall, hpa⟩
        refine ⟨b :: l₁, a, l₂, by simp, by simp [hlen, hji], ?_, hpa⟩
        intro x hx
        rcases List.mem_cons.mp hx with rfl | hxl
        · exact hpb
        · exact hall x hxl

/-! ## The backward walk: `calculateCurrentStreak` versus the spec's walk -/

theorem specWalkAux_succ (ds : List Int) (d : Int) (fuel : Nat) :
    specWalkAux ds d (fuel + 1)
      = if ds.contains d then specWalkAux ds (d - 1) fuel + 1 else 0 := rfl

theorem specWalkAux_not_mem {ds : List Int} {d : Int} (h : ds.contains d = false) :
    ∀ fuel, specWalkAux ds d fuel = 0 := by
  intro fuel
  cases fuel with
  | zero => rfl
  | succ n => rw [specWalkAux_succ, h, if_neg]; simp

theorem specWalkAux_pos_iff {ds : List Int} {d : Int} {fuel : Nat} :
    0 < specWalkAux ds d fuel ↔ ds.contains d = true ∧ 0 < fuel := by
  cases fuel with
  | zero => simp [specWalkAux]
  | succ n =>
    rw [specWalkAux_succ]
    cases hc : ds.contains d with
    | false => simp
    | true => simp

theorem specWalkAux_eq_findIdx (ds : List Int) :
    ∀ (n : Nat) (start : Int),
      specWalkAux ds start n
        = (findIdxOrNone (fun d => !(ds.contains d))
            ((List.range n).map (fun i : Nat => addDays start (-(i : Int))))).getD n := by
  intro n
  induction n with
  | zero => intro start; rfl
  | succ n ih =>
    intro start
    have hfun : ((fun i : Nat => addDays start (-(i : Int))) ∘ Nat.succ)
        = fun i : Nat => addDays (start - 1) (-(i : Int)) := by
      funext i
      simp only [Function.comp, addDays]
      push_cast
      ring
    have hmap : (List.range (n + 1)).map (fun i : Nat => addDays start (-(i : Int)))
        = start :: (List.range n).map (fun i : Nat => addDays (start - 1) (-(i : Int))) := by
      rw [List.range_succ_eq_map, List.map_cons, List.map_map, hfun]
      congr 1
      simp [addDays]
    rw [hmap, specWalkAux_succ]
    cases hc : ds.contains start with
    | false =>
      rw [if_neg (by simp), findIdxOrNone_cons_true (by rw [hc]; rfl)]
      rfl
    | true =>
      rw [if_pos rfl, findIdxOrNone_cons_false (by rw [hc]; rfl), ih (start - 1)]
      rcases hfio : findIdxOrNone (fun d => !(ds.contains d))
          ((List.range n).map (fun i : Nat => addDays (start - 1) (-(i : Int)))) with _ | i
      · rfl
      · rfl

theorem calculateCurrentStreak_streak_def (ds : List Int) (today : Int) :
    (calculateCurrentStreak ds today).streak
      = match findIdxOrNone (fun d => !(ds.contains d))
            ((List.range ds.length).map
              (fun i : Nat => addDays (if ds.contains today then today else addDays today (-1))
                (-(i : Int)))) with
        | none => (((List.range ds.length).map
              (fun i : Nat => addDays (if ds.contains today then today else addDays today (-1))
                (-(i : Int)))).filter (fun d => ds.contains d)).length
        | some i => i := rfl

theorem calculateCurrentStreak_dates_def (ds : List Int) (today : Int) :
    (calculateCurrentStreak ds today).dates
      = ((((List.range ds.length).map
              (fun i : Nat => addDays (if ds.contains today then today else addDays today (-1))
                (-(i : Int)))).filter (fun d => ds.contains d)).take
          (calculateCurrentStreak ds today).streak).reverse := rfl

theorem streak_eq_specWalk (entryDates : List Int) (today : Int) :
    (calculateCurrentStreak entryDates today).streak
      = specWalk entryDates
          (if entryDates.contains today then today else addDays today (-1)) := by
  rw [calculateCurrentStreak_streak_def]
  unfold specWalk
  rw [specWalkAux_eq_findIdx]
  rcases hfio : findIdxOrNone (fun d => !(entryDates.contains d))
      ((List.range entryDates.length).map
        (fun i : Nat => addDays (if entryDates.contains today then today else addDays today (-1))
          (-(i : Int)))) with _ | i
  · have hall := findIdxOrNone_none hfio
    have hfilter : (((List.range entryDates.length).map
          (fun i : Nat => addDays (if entryDates.contains today then today else addDays today (-1))
            (-(i : Int)))).filter (fun d => entryDates.contains d))
        = (List.range entryDates.length).map
            (fun i : Nat => addDays (if entryDates.contains today then today else addDays today (-1))
              (-(i : Int))) := by
      refine List.filter_eq_self.mpr ?_
      intro a ha
      have h1 := hall a ha
      cases hb : entryDates.contains a with
      | true => rfl
      | false => rw [hb] at h1; simp at h1
    rw [hfilter]
    simp
  · rfl

/-! ## Sortedness of `getUniqueDates` -/

theorem strictDesc_cons_cons {a b : Int} {t : List Int} :
    strictDesc (a :: b :: t) = true ↔ b < a ∧ strictDesc (b :: t) = true := by
  simp [strictDesc]

theorem strictDesc_tail {a : Int} {t : List Int} (h : strictDesc (a :: t) = true) :
    strictDesc t = true := by
  cases t with
  | nil => rfl
  | cons b t' => exact (strictDesc_cons_cons.mp h).2

theorem strictDesc_lt_head {a : Int} {t : List Int} (h : strictDesc (a :: t) = true) :
    ∀ x ∈ t, x < a := by
  induction t generalizing a with
  | nil => intro x hx; cases hx
  | cons b t' ih =>
    intro x hx
    rcases strictDesc_cons_cons.mp h with ⟨hba, htail⟩
    rcases List.mem_cons.mp hx with rfl | hxt
    · exact hba
    · exact lt_trans (ih htail x hxt) hba

theorem pairwise_gt_strictDesc : ∀ {l : List Int}, List.Pairwise (· > ·) l → strictDesc l = true := by
  intro l
  induction l with
  | nil => intro _; rfl
  | cons a t ih =>
    intro h
    rcases List.pairwise_cons.mp h with ⟨hhead, htail⟩
    cases t with
    | nil => rfl
    | cons b t' =>
      exact strictDesc_cons_cons.mpr ⟨hhead b (List.mem_cons_self b t'), ih htail⟩

theorem getUniqueDates_sorted_ge (entries : List JournalEntry) :
    List.Sorted (· ≥ ·) (getUniqueDates entries) :=
  List.sorted_insertionSort _ _

theorem getUniqueDates_nodup (entries : List JournalEntry) :
    (getUniqueDates entries).Nodup :=
  ((List.perm_insertionSort _ _).nodup_iff).mpr (List.nodup_dedup _)

theorem getUniqueDates_strictDesc (entries : List JournalEntry) :
    strictDesc (getUniqueDates entries) = true := by
  apply pairwise_gt_strictDesc
  have h1 := getUniqueDates_sorted_ge entries
  have h2 := getUniqueDates_nodup entries
  exact (h1.and h2).imp (fun hab => lt_of_le_of_ne hab.1 (Ne.symm hab.2))

theorem mem_getUniqueDates {entries : List JournalEntry} {x : Int} :
    x ∈ getUniqueDates entries ↔ x ∈ entries.map (fun e => toDateString e.createdAt) := by
  unfold getUniqueDates
  rw [(List.perm_insertionSort _ _).mem_iff, List.mem_dedup]

/-! ## `findLongestStreak` versus the recursive maximum-run computation -/

theorem headRun_pos (a : Int) (t : List Int) : 1 ≤ headRun (a :: t) := by
  cases t with
  | nil => exact le_refl 1
  | cons b t' =>
    show 1 ≤ if a - b = 1 then headRun (b :: t') + 1 else 1
    split
    · omega
    · exact le_refl 1

theorem datePairsFlags_nil : datePairsFlags [] = [] := rfl

theorem datePairsFlags_single (a : Int) : datePairsFlags [a] = [] := rfl

theorem datePairsFlags_cons (a b : Int) (t : List Int) :
    datePairsFlags (a :: b :: t) = (daysBetween a b == 1) :: datePairsFlags (b :: t) := by
  simp [datePairsFlags]

theorem foldl_max_append (l : List Nat) (x b : Nat) :
    (l ++ [x]).foldl Nat.max b = Nat.max (l.foldl Nat.max b) x := by
  rw [List.foldl_append]
  rfl

theorem eq_dropLast_append {l : List Nat} {c : Nat} (h : l.getLast? = some c) :
    l = l.dropLast ++ [c] := by
  have hne : l ≠ [] := by intro he; subst he; cases h
  have h2 := List.dropLast_append_getLast hne
  rw [List.getLast?_eq_getLast l hne] at h
  injection h with h
  rw [h] at h2
  exact h2.symm

theorem streakStep_true {acc : List Nat} {c : Nat} (h : acc.getLast? = some c) (hc : c ≠ 0) :
    streakStep acc true = acc.dropLast ++ [c + 1] := by
  simp [streakStep, h, hc]

theorem streakStep_false (acc : List Nat) : streakStep acc false = acc ++ [1] := by
  simp [streakStep]

theorem foldl_streakStep_eq_mrAux (flags : List Bool) :
    ∀ (acc : List Nat) (c : Nat), acc.getLast? = some c → c ≠ 0 →
      (flags.foldl streakStep acc).foldl Nat.max 0 = mrAux c (acc.foldl Nat.max 0) flags := by
  induction flags with
  | nil => intro acc c h hc; rfl
  | cons b bs ih =>
    intro acc c h hc
    cases b with
    | true =>
      rw [List.foldl_cons, streakStep_true h hc,
        ih (acc.dropLast ++ [c + 1]) (c + 1) (List.getLast?_concat _) (by omega),
        foldl_max_append]
      have hstep : mrAux c (acc.foldl Nat.max 0) (true :: bs)
          = mrAux (c + 1) (Nat.max (acc.foldl Nat.max 0) (c + 1)) bs := by
        simp [mrAux]
      rw [hstep]
      have h2 : acc.foldl Nat.max 0 = Nat.max (acc.dropLast.foldl Nat.max 0) c := by
        conv_lhs => rw [eq_dropLast_append h]
        exact foldl_max_append _ _ _
      rw [h2]
      have hmax : Nat.max (Nat.max (acc.dropLast.foldl Nat.max 0) c) (c + 1)
          = Nat.max (acc.dropLast.foldl Nat.max 0) (c + 1) := by
        simp only [Nat.max_def]
        repeat' split
        all_goals omega
      rw [hmax]
    | false =>
      rw [List.foldl_cons, streakStep_false,
        ih (acc ++ [1]) 1 (List.getLast?_concat _) one_ne_zero,
        foldl_max_append]
      rfl

theorem findLongestStreak_cons (a : Int) (t : List Int) :
    findLongestStreak (a :: t) = mrAux 1 1 (datePairsFlags (a :: t)) := by
  unfold findLongestStreak
  rw [if_neg (by simp)]
  rw [foldl_streakStep_eq_mrAux _ [1] 1 rfl one_ne_zero]
  rfl

theorem mrAux_datePairsFlags :
    ∀ (t : List Int) (a : Int) (cur best : Nat), 1 ≤ cur → cur ≤ best →
      mrAux cur best (datePairsFlags (a :: t))
        = Nat.max best (Nat.max (cur - 1 + headRun (a :: t)) (maxRunRec t)) := by
  intro t
  induction t with
  | nil =>
    intro a cur best h1 h2
    rw [datePairsFlags_single]
    show best = Nat.max best (Nat.max (cur - 1 + headRun [a]) (maxRunRec []))
    show best = Nat.max best (Nat.max (cur - 1 + 1) 0)
    simp only [Nat.max_def]
    repeat' split
    all_goals omega
  | cons b t' ih =>
    intro a cur best h1 h2
    rw [datePairsFlags_cons]
    have hH := headRun_pos b t'
    by_cases hab : a - b = 1
    · have hflag : (daysBetween a b == 1) = true := by
        rw [daysBetween_eq, hab]; rfl
      rw [hflag]
      have hstep : mrAux cur best (true :: datePairsFlags (b :: t'))
          = mrAux (cur + 1) (Nat.max best (cur + 1)) (datePairsFlags (b :: t')) := by
        simp [mrAux]
      rw [hstep, ih b (cur + 1) (Nat.max best (cur + 1)) (by omega) (Nat.le_max_right _ _)]
      have hhr : headRun (a :: b :: t') = headRun (b :: t') + 1 := by
        show (if a - b = 1 then headRun (b :: t') + 1 else 1) = headRun (b :: t') + 1
        rw [if_pos hab]
      have hmr : maxRunRec (b :: t') = Nat.max (headRun (b :: t')) (maxRunRec t') := rfl
      rw [hhr, hmr]
      simp only [Nat.max_def]
      repeat' split
      all_goals omega
    · have hflag : (daysBetween a b == 1) = false := by
        rw [daysBetween_eq]
        simp [hab]
      rw [hflag]
      have hstep : mrAux cur best (false :: datePairsFlags (b :: t'))
          = mrAux 1 (Nat.max best 1) (datePairsFlags (b :: t')) := by
        simp [mrAux]
      rw [hstep, ih b 1 (Nat.max best 1) (le_refl 1) (Nat.le_max_right _ _)]
      have hhr : headRun (a :: b :: t') = 1 := by
        show (if a - b = 1 then headRun (b :: t') + 1 else 1) = 1
        rw [if_neg hab]
      have hmr : maxRunRec (b :: t') = Nat.max (headRun (b :: t')) (maxRunRec t') := rfl
      rw [hhr, hmr]
      simp only [Nat.max_def]
      repeat' split
      all_goals omega

theorem findLongestStreak_eq_maxRunRec : ∀ ds : List Int, findLongestStreak ds = maxRunRec ds := by
  intro ds
  cases ds with
  | nil => rfl
  | cons a t =>
    rw [findLongestStreak_cons, mrAux_datePairsFlags t a 1 1 (le_refl 1) (le_refl 1)]
    have hH := headRun_pos a t
    show Nat.max 1 (Nat.max (1 - 1 + headRun (a :: t)) (maxRunRec t))
        = Nat.max (headRun (a :: t)) (maxRunRec t)
    simp only [Nat.max_def]
    repeat' split
    all_goals omega

/-! ## The spec's walk on strictly descending day lists -/

theorem specWalkAux_cons_lt (a : Int) (t : List Int) :
    ∀ (fuel : Nat) (d : Int), d < a → specWalkAux (a :: t) d fuel = specWalkAux t d fuel := by
  intro fuel
  induction fuel with
  | zero => intro d _; rfl
  | succ n ih =>
    intro d hd
    rw [specWalkAux_succ, specWalkAux_succ]
    have hda : (d == a) = false := by
      simp only [beq_eq_false_iff_ne]
      omega
    have hc : (a :: t).contains d = t.contains d := by
      rw [List.contains_cons, hda, Bool.false_or]
    rw [hc]
    cases hct : t.contains d with
    | false => simp
    | true => rw [if_pos rfl, if_pos rfl, ih (d - 1) (by omega)]

theorem specWalkAux_head :
    ∀ (t : List Int) (a : Int) (fuel : Nat), strictDesc (a :: t) = true →
      (a :: t).length ≤ fuel → specWalkAux (a :: t) a fuel = headRun (a :: t) := by
  intro t
  induction t with
  | nil =>
    intro a fuel _ hlen
    obtain ⟨f, rfl⟩ : ∃ f, fuel = f + 1 := ⟨fuel - 1, by simp at hlen; omega⟩
    rw [specWalkAux_succ]
    have hca : ([a] : List Int).contains a = true := by simp
    rw [hca, if_pos rfl]
    have hnm : ([a] : List Int).contains (a - 1) = false := by
      simp only [List.contains_cons, List.contains_nil, Bool.or_false, beq_eq_false_iff_ne]
      omega
    rw [specWalkAux_not_mem hnm f]
    rfl
  | cons b t' ih =>
    intro a fuel hd hlen
    obtain ⟨f, rfl⟩ : ∃ f, fuel = f + 1 := ⟨fuel - 1, by simp at hlen; omega⟩
    rw [specWalkAux_succ]
    have hca : (a :: b :: t').contains a = true := by simp
    rw [hca, if_pos rfl]
    rcases strictDesc_cons_cons.mp hd with ⟨hba, hdt⟩
    by_cases hab : a - b = 1
    · have hdrop : specWalkAux (a :: b :: t') (a - 1) f = specWalkAux (b :: t') (a - 1) f :=
        specWalkAux_cons_lt a (b :: t') f (a - 1) (by omega)
      have hb : a - 1 = b := by omega
      rw [hdrop, hb, ih b f hdt (by simp at hlen ⊢; omega)]
      have hhr : headRun (a :: b :: t') = headRun (b :: t') + 1 := by
        show (if a - b = 1 then headRun (b :: t') + 1 else 1) = headRun (b :: t') + 1
        rw [if_pos hab]
      rw [hhr]
    · have hnotmem : (a - 1) ∉ (a :: b :: t') := by
        intro hmem
        rcases List.mem_cons.mp hmem with h1 | hmem2
        · omega
        · rcases List.mem_cons.mp hmem2 with h2 | h3
          · omega
          · have := strictDesc_lt_head hdt _ h3
            omega
      have hnot : (a :: b :: t').contains (a - 1) = false := by
        cases hcc : (a :: b :: t').contains (a - 1) with
        | false => rfl
        | true => exact absurd (contains_iff_mem.mp hcc) hnotmem
      rw [specWalkAux_not_mem hnot f]
      have hhr : headRun (a :: b :: t') = 1 := by
        show (if a - b = 1 then headRun (b :: t') + 1 else 1) = 1
        rw [if_neg hab]
      rw [hhr]

theorem specWalkAux_fuel_irrel :
    ∀ (ds : List Int), strictDesc ds = true → ∀ s ∈ ds, ∀ f1 f2 : Nat,
      ds.length ≤ f1 → ds.length ≤ f2 → specWalkAux ds s f1 = specWalkAux ds s f2 := by
  intro ds
  induction ds with
  | nil => intro _ s hs; cases hs
  | cons a t ih =>
    intro hd s hs f1 f2 h1 h2
    rcases List.mem_cons.mp hs with rfl | hst
    · rw [specWalkAux_head t s f1 hd h1, specWalkAux_head t s f2 hd h2]
    · have hlt := strictDesc_lt_head hd s hst
      rw [specWalkAux_cons_lt a t f1 s hlt, specWalkAux_cons_lt a t f2 s hlt]
      exact ih (strictDesc_tail hd) s hst f1 f2
        (by simp only [List.length_cons] at h1; omega)
        (by simp only [List.length_cons] at h2; omega)

theorem foldr_max_le_of_mem {f : Int → Nat} :
    ∀ {l : List Int} {x : Int}, x ∈ l → f x ≤ (l.map f).foldr Nat.max 0 := by
  intro l
  induction l with
  | nil => intro x hx; cases hx
  | cons a t ih =>
    intro x hx
    show f x ≤ Nat.max (f a) ((t.map f).foldr Nat.max 0)
    rcases List.mem_cons.mp hx with rfl | hxt
    · exact Nat.le_max_left _ _
    · exact le_trans (ih hxt) (Nat.le_max_right _ _)

theorem foldr_max_map_congr {f g : Int → Nat} :
    ∀ {l : List Int}, (∀ x ∈ l, f x = g x) →
      (l.map f).foldr Nat.max 0 = (l.map g).foldr Nat.max 0 := by
  intro l
  induction l with
  | nil => intro _; rfl
  | cons a t ih =>
    intro h
    show Nat.max (f a) ((t.map f).foldr Nat.max 0) = Nat.max (g a) ((t.map g).foldr Nat.max 0)
    rw [h a (List.mem_cons_self a t), ih (fun x hx => h x (List.mem_cons_of_mem a hx))]

theorem maxRunRec_eq_specLongestRun :
    ∀ (ds : List Int), strictDesc ds = true → maxRunRec ds = specLongestRun ds := by
  intro ds
  induction ds with
  | nil => intro _; rfl
  | cons a t ih =>
    intro hd
    have hhead : specWalk (a :: t) a = headRun (a :: t) :=
      specWalkAux_head t a (a :: t).length hd (le_refl _)
    have htail : ∀ s ∈ t, specWalk (a :: t) s = specWalk t s := by
      intro s hs
      have hlt := strictDesc_lt_head hd s hs
      unfold specWalk
      rw [specWalkAux_cons_lt a t _ s hlt]
      exact specWalkAux_fuel_irrel t (strictDesc_tail hd) s hs (a :: t).length t.length
        (by simp only [List.length_cons]; omega) (le_refl _)
    show Nat.max (headRun (a :: t)) (maxRunRec t)
        = Nat.max (specWalk (a :: t) a) ((t.map (fun s => specWalk (a :: t) s)).foldr Nat.max 0)
    rw [hhead, foldr_max_map_congr htail, ih (strictDesc_tail hd)]
    rfl

/-! ## `calculateStreaks` field equations -/

theorem calculateStreaks_empty (today : Int) :
    calculateStreaks [] today
      = { currentStreak := 0, longestStreak := 0, lastEntryDate := none, streakDates := [] } := rfl

theorem calculateStreaks_fields {entries : List JournalEntry} (today : Int)
    (h : entries.isEmpty = false) :
    calculateStreaks entries today
      = { currentStreak := (calculateCurrentStreak (getUniqueDates entries) today).streak
          longestStreak := findLongestStreak (getUniqueDates entries)
          lastEntryDate := (getUniqueDates entries).head?
          streakDates := (calculateCurrentStreak (getUniqueDates entries) today).dates } := by
  unfold calculateStreaks
  rw [if_neg (by simp [h])]

/-! ## The most recent entry day -/

theorem mostRecentDay_cons_some (d : Int) (rest : List Int) :
    ∃ m, mostRecentDay (d :: rest) = some m := by
  unfold mostRecentDay
  rcases mostRecentDay rest with _ | m
  · exact ⟨d, rfl⟩
  · exact ⟨max d m, rfl⟩

theorem mostRecentDay_eq_none : ∀ {l : List Int}, mostRecentDay l = none → l = [] := by
  intro l
  cases l with
  | nil => intro _; rfl
  | cons d rest =>
    intro h
    exfalso
    rcases mostRecentDay_cons_some d rest with ⟨m, hm⟩
    rw [hm] at h
    cases h

theorem mostRecentDay_bound :
    ∀ {l : List Int} {m : Int}, mostRecentDay l = some m → m ∈ l ∧ ∀ x ∈ l, x ≤ m := by
  intro l
  induction l with
  | nil => intro m h; cases h
  | cons d rest ih =>
    intro m h
    unfold mostRecentDay at h
    rcases hm : mostRecentDay rest with _ | k
    · rw [hm] at h
      injection h with h
      subst h
      have hrest : rest = [] := mostRecentDay_eq_none hm
      subst hrest
      refine ⟨List.mem_cons_self _ _, ?_⟩
      intro x hx
      rcases List.mem_cons.mp hx with rfl | hx0
      · exact le_refl _
      · cases hx0
    · rw [hm] at h
      injection h with h
      subst h
      rcases ih hm with ⟨hk, hbound⟩
      constructor
      · rcases max_choice d k with h1 | h1 <;> rw [h1]
        · exact List.mem_cons_self _ _
        · exact List.mem_cons_of_mem _ hk
      · intro x hx
        rcases List.mem_cons.mp hx with rfl | hxr
        · exact le_max_left _ _
        · exact le_trans (hbound x hxr) (le_max_right _ _)

theorem head_getUniqueDates_eq_mostRecent (entries : List JournalEntry)
    (h : entries.isEmpty = false) :
    (getUniqueDates entries).head? = mostRecentEntryDay entries := by
  obtain ⟨e, es, rfl⟩ : ∃ e es, entries = e :: es := by
    cases entries with
    | nil => simp at h
    | cons e es => exact ⟨e, es, rfl⟩
  have hdays : (e :: es).map (fun x => toDateString x.createdAt)
      = toDateString e.createdAt :: es.map (fun x => toDateString x.createdAt) := rfl
  rcases mostRecentDay_cons_some (toDateString e.createdAt)
      (es.map (fun x => toDateString x.createdAt)) with ⟨M, hM⟩
  have hM' : mostRecentDay ((e :: es).map (fun x => toDateString x.createdAt)) = some M := by
    rw [hdays]; exact hM
  rcases mostRecentDay_bound hM' with ⟨hMmem, hMbound⟩
  have hmem_e : toDateString e.createdAt ∈ (e :: es).map (fun x => toDateString x.createdAt) := by
    rw [hdays]; exact List.mem_cons_self _ _
  have hds_ne : getUniqueDates (e :: es) ≠ [] :=
    List.ne_nil_of_mem (mem_getUniqueDates.mpr hmem_e)
  rcases hds : getUniqueDates (e :: es) with _ | ⟨h0, t0⟩
  · exact absurd hds hds_ne
  · have hsorted := getUniqueDates_sorted_ge (e :: es)
    rw [hds] at hsorted
    rcases List.pairwise_cons.mp hsorted with ⟨hhead, _⟩
    have h0mem : h0 ∈ (e :: es).map (fun x => toDateString x.createdAt) := by
      have : h0 ∈ getUniqueDates (e :: es) := by rw [hds]; exact List.mem_cons_self _ _
      exact mem_getUniqueDates.mp this
    have hub : ∀ x ∈ (e :: es).map (fun x => toDateString x.createdAt), x ≤ h0 := by
      intro x hx
      have hxds : x ∈ getUniqueDates (e :: es) := mem_getUniqueDates.mpr hx
      rw [hds] at hxds
      rcases List.mem_cons.mp hxds with rfl | hxt
      · exact le_refl _
      · exact hhead x hxt
    have hM_le : M ≤ h0 := hub M hMmem
    have hle_M : h0 ≤ M := hMbound h0 h0mem
    have : h0 = M := le_antisymm hle_M hM_le
    subst this
    show some h0 = mostRecentEntryDay (e :: es)
    unfold mostRecentEntryDay
    rw [hM']

/-! ## Shape of the current streak dates -/

theorem filter_take_of_all {p : Int → Bool} :
    ∀ (l : List Int) (k : Nat), (∀ x ∈ l.take k, p x = true) →
      (l.filter p).take k = l.take k := by
  intro l
  induction l with
  | nil => intro k _; simp
  | cons a t ih =>
    intro k hall
    cases k with
    | zero => rfl
    | succ k' =>
      have hpa : p a = true := hall a (by simp)
      rw [List.filter_cons_of_pos hpa, List.take_succ_cons, List.take_succ_cons,
        ih k' (fun x hx => hall x (by rw [List.take_succ_cons]; exact List.mem_cons_of_mem a hx))]

theorem take_candidates (start : Int) (n s : Nat) (hs : s ≤ n) :
    ((List.range n).map (fun i : Nat => addDays start (-(i : Int)))).take s
      = (List.range s).map (fun i : Nat => addDays start (-(i : Int))) := by
  rw [← List.map_take, List.take_range, Nat.min_eq_left hs]

theorem revList_succ (s : Nat) (start : Int) :
    ((List.range (s + 1)).map (fun i : Nat => addDays start (-(i : Int)))).reverse
      = addDays start (-(s : Int))
          :: ((List.range s).map (fun i : Nat => addDays start (-(i : Int)))).reverse := by
  rw [List.range_succ, List.map_append, List.reverse_append]
  simp

theorem ascendingContiguous_revList :
    ∀ (s : Nat) (start : Int),
      ascendingContiguous
        (((List.range s).map (fun i : Nat => addDays start (-(i : Int)))).reverse) = true := by
  intro s
  induction s with
  | zero => intro start; rfl
  | succ s' ih =>
    intro start
    rw [revList_succ]
    cases s' with
    | zero => rfl
    | succ k =>
      rw [revList_succ k start]
      show ((addDays start (-(k : Int)) == addDays start (-((k + 1 : Nat) : Int)) + 1)
          && ascendingContiguous (addDays start (-(k : Int))
              :: ((List.range k).map (fun i : Nat => addDays start (-(i : Int)))).reverse)) = true
      rw [Bool.and_eq_true]
      constructor
      · apply beq_iff_eq.mpr
        simp only [addDays]
        push_cast
        ring
      · have := ih start
        rw [revList_succ k start] at this
        exact this

theorem head?_candidates (start : Int) (n : Nat) (hn : 0 < n) :
    ((List.range n).map (fun i : Nat => addDays start (-(i : Int)))).head? = some start := by
  obtain ⟨m, rfl⟩ : ∃ m, n = m + 1 := ⟨n - 1, by omega⟩
  rw [List.range_succ_eq_map, List.map_cons]
  show some (addDays start (-((0 : Nat) : Int))) = some start
  simp [addDays]

theorem streak_take_eq (ds : List Int) (start : Int) (s : Nat)
    (hs : s = (findIdxOrNone (fun d => !(ds.contains d))
        ((List.range ds.length).map (fun i : Nat => addDays start (-(i : Int))))).getD
        ds.length) :
    s ≤ ds.length
    ∧ ((((List.range ds.length).map (fun i : Nat => addDays start (-(i : Int)))).filter
          (fun d => ds.contains d)).take s)
        = (List.range s).map (fun i : Nat => addDays start (-(i : Int)))
    ∧ ∀ x ∈ (List.range s).map (fun i : Nat => addDays start (-(i : Int))),
        ds.contains x = true := by
  rcases hfio : findIdxOrNone (fun d => !(ds.contains d))
      ((List.range ds.length).map (fun i : Nat => addDays start (-(i : Int)))) with _ | i
  · rw [hfio, Option.getD_none] at hs
    subst hs
    have hall : ∀ x ∈ (List.range ds.length).map (fun i : Nat => addDays start (-(i : Int))),
        ds.contains x = true := by
      intro x hx
      have h1 := findIdxOrNone_none hfio x hx
      cases hcx : ds.contains x with
      | true => rfl
      | false => rw [hcx] at h1; simp at h1
    refine ⟨le_refl _, ?_, ?_⟩
    · rw [filter_take_of_all _ _ (fun x hx => hall x (List.take_subset _ _ hx)),
        take_candidates start ds.length ds.length (le_refl _)]
    · exact hall
  · rw [hfio, Option.getD_some] at hs
    subst hs
    rcases findIdxOrNone_some hfio with ⟨l₁, a, l₂, hdecomp, hlen, hallneg, hpa⟩
    have hall1 : ∀ x ∈ l₁, ds.contains x = true := by
      intro x hx
      have h1 := hallneg x hx
      cases hcx : ds.contains x with
      | true => rfl
      | false => rw [hcx] at h1; simp at h1
    have hile : s ≤ ds.length := by
      have h2 : ((List.range ds.length).map
            (fun i : Nat => addDays start (-(i : Int)))).length
          = l₁.length + (a :: l₂).length := by
        rw [hdecomp]
        simp
      simp only [List.length_map, List.length_range, List.length_cons] at h2
      omega
    have htake : ((List.range ds.length).map
          (fun i : Nat => addDays start (-(i : Int)))).take s = l₁ := by
      rw [hdecomp, ← hlen, List.take_left]
    have hall : ∀ x ∈ ((List.range ds.length).map
          (fun i : Nat => addDays start (-(i : Int)))).take s, ds.contains x = true := by
      rw [htake]
      exact hall1
    refine ⟨hile, ?_, ?_⟩
    · rw [filter_take_of_all _ _ hall, take_candidates start ds.length s hile]
    · intro x hx
      rw [← take_candidates start ds.length s hile] at hx
      exact hall x hx

theorem calculateCurrentStreak_shape (ds : List Int) (today : Int) :
    (calculateCurrentStreak ds today).dates.length = (calculateCurrentStreak ds today).streak
    ∧ ascendingContiguous (calculateCurrentStreak ds today).dates = true
    ∧ (calculateCurrentStreak ds today).dates.all (fun d => ds.contains d) = true
    ∧ (calculateCurrentStreak ds today).dates.getLast?
        = (if (calculateCurrentStreak ds today).streak = 0 then none
           else some (if ds.contains today then today else addDays today (-1))) := by
  have hstreak : (calculateCurrentStreak ds today).streak
      = (findIdxOrNone (fun d => !(ds.contains d))
          ((List.range ds.length).map (fun i : Nat =>
            addDays (if ds.contains today then today else addDays today (-1))
              (-(i : Int))))).getD ds.length := by
    rw [streak_eq_specWalk]
    unfold specWalk
    rw [specWalkAux_eq_findIdx]
  rcases streak_take_eq ds (if ds.contains today then today else addDays today (-1))
      (calculateCurrentStreak ds today).streak hstreak with ⟨hle, htake, hall⟩
  have hdates : (calculateCurrentStreak ds today).dates
      = ((List.range (calculateCurrentStreak ds today).streak).map
          (fun i : Nat => addDays (if ds.contains today then today else addDays today (-1))
            (-(i : Int)))).reverse := by
    rw [calculateCurrentStreak_dates_def, htake]
  refine ⟨?_, ?_, ?_, ?_⟩
  · rw [hdates]
    simp
  · rw [hdates]
    exact ascendingContiguous_revList _ _
  · rw [hdates]
    apply List.all_eq_true.mpr
    intro x hx
    exact hall x (List.mem_reverse.mp hx)
  · rw [hdates, List.getLast?_reverse]
    rcases Nat.eq_zero_or_pos (calculateCurrentStreak ds today).streak with hz | hpos
    · rw [hz]
      rfl
    · have hne : (calculateCurrentStreak ds today).streak ≠ 0 := by omega
      rw [if_neg hne, head?_candidates _ _ hpos]

/-! ## Milestones -/

theorem find?_eq_firstAbove (n : Nat) :
    ∀ l : List Nat, (l.find? fun m => n < m) = firstAbove n l := by
  intro l
  induction l with
  | nil => rfl
  | cons m ms ih =>
    unfold firstAbove
    by_cases h : n < m
    · rw [if_pos h, List.find?_cons_of_pos _ (by simpa using h)]
    · rw [if_neg h, List.find?_cons_of_neg _ (by simpa using h), ih]

theorem milestone_getD (n : Nat) :
    (getDaysUntilNextMilestone n).milestone
      = (firstAbove n milestones).getD (((n + 99) / 100) * 100) := by
  show ((milestones.find? fun m => n < m).getD (((n + 99) / 100) * 100)) = _
  rw [find?_eq_firstAbove]

/-! ## Helpers for empty and nonempty collections -/

theorem eq_nil_of_isEmpty {entries : List JournalEntry} (h : entries.isEmpty = true) :
    entries = [] := by
  cases entries with
  | nil => rfl
  | cons e es => simp at h

theorem exists_cons_of_not_isEmpty {entries : List JournalEntry} (h : entries.isEmpty = false) :
    ∃ e es, entries = e :: es := by
  cases entries with
  | nil => simp at h
  | cons e es => exact ⟨e, es, rfl⟩

theorem contains_getUniqueDates (entries : List JournalEntry) (x : Int) :
    (getUniqueDates entries).contains x
      = (entries.map (fun e => toDateString e.createdAt)).contains x := by
  cases h1 : (getUniqueDates entries).contains x with
  | true =>
    have hm := mem_getUniqueDates.mp (contains_iff_mem.mp h1)
    exact (contains_iff_mem.mpr hm).symm
  | false =>
    cases h2 : (entries.map fun e => toDateString e.createdAt).contains x with
    | false => rfl
    | true =>
      have hm := mem_getUniqueDates.mpr (contains_iff_mem.mp h2)
      rw [contains_iff_mem.mpr hm] at h1
      cases h1

/-! ## Claim theorems -/

/-- C1 (counterexample): at a current streak of exactly 1000 the code returns
the milestone 1000 itself with `daysUntil = 0`, so the returned milestone is
not strictly greater than the current streak, contradicting the claim. -/
theorem milestone_claim_fails_at_1000 :
    (getDaysUntilNextMilestone 1000).milestone = 1000
    ∧ (getDaysUntilNextMilestone 1000).daysUntil = 0
    ∧ ¬ (1000 < (getDaysUntilNextMilestone 1000).milestone) := by
  decide

/-- C1 (amended): `getDaysUntilNextMilestone` always returns
`daysUntil = milestone - currentStreak`; below 1000 the milestone is the first
fixed milestone strictly greater than the current streak; from 1000 on it is
the smallest multiple of 100 that is greater than or equal to the current
streak (so it equals the current streak, with `daysUntil = 0`, exactly when
the streak is a multiple of 100). -/
theorem getDaysUntilNextMilestone_spec (n : Nat) :
    (getDaysUntilNextMilestone n).daysUntil
        = ((getDaysUntilNextMilestone n).milestone : Int) - (n : Int)
    ∧ ((n < 1000
          ∧ firstAbove n milestones = some (getDaysUntilNextMilestone n).milestone
          ∧ n < (getDaysUntilNextMilestone n).milestone)
       ∨ (1000 ≤ n
          ∧ (getDaysUntilNextMilestone n).milestone % 100 = 0
          ∧ n ≤ (getDaysUntilNextMilestone n).milestone
          ∧ (getDaysUntilNextMilestone n).milestone < n + 100)) := by
  refine ⟨rfl, ?_⟩
  rcases Nat.lt_or_ge n 1000 with hlt | hge
  · left
    have hsome : ∃ M, firstAbove n milestones = some M ∧ n < M := by
      simp only [milestones, firstAbove]
      rcases Nat.lt_or_ge n 5 with h | h5
      · rw [if_pos h]; exact ⟨5, rfl, h⟩
      rcases Nat.lt_or_ge n 10 with h | h10
      · rw [if_neg (show ¬ n < 5 by omega), if_pos h]; exact ⟨10, rfl, h⟩
      rcases Nat.lt_or_ge n 25 with h | h25
      · rw [if_neg (show ¬ n < 5 by omega), if_neg (show ¬ n < 10 by omega), if_pos h]
        exact ⟨25, rfl, h⟩
      rcases Nat.lt_or_ge n 50 with h | h50
      · rw [if_neg (show ¬ n < 5 by omega), if_neg (show ¬ n < 10 by omega),
          if_neg (show ¬ n < 25 by omega), if_pos h]
        exact ⟨50, rfl, h⟩
      rcases Nat.lt_or_ge n 100 with h | h100
      · rw [if_neg (show ¬ n < 5 by omega), if_neg (show ¬ n < 10 by omega),
          if_neg (show ¬ n < 25 by omega), if_neg (show ¬ n < 50 by omega), if_pos h]
        exact ⟨100, rfl, h⟩
      rcases Nat.lt_or_ge n 200 with h | h200
      · rw [if_neg (show ¬ n < 5 by omega), if_neg (show ¬ n < 10 by omega),
          if_neg (show ¬ n < 25 by omega), if_neg (show ¬ n < 50 by omega),
          if_neg (show ¬ n < 100 by omega), if_pos h]
        exact ⟨200, rfl, h⟩
      rcases Nat.lt_or_ge n 365 with h | h365
      · rw [if_neg (show ¬ n < 5 by omega), if_neg (show ¬ n < 10 by omega),
          if_neg (show ¬ n < 25 by omega), if_neg (show ¬ n < 50 by omega),
          if_neg (show ¬ n < 100 by omega), if_neg (show ¬ n < 200 by omega), if_pos h]
        exact ⟨365, rfl, h⟩
      rcases Nat.lt_or_ge n 500 with h | h500
      · rw [if_neg (show ¬ n < 5 by omega), if_neg (show ¬ n < 10 by omega),
          if_neg (show ¬ n < 25 by omega), if_neg (show ¬ n < 50 by omega),
          if_neg (show ¬ n < 100 by omega), if_neg (show ¬ n < 200 by omega),
          if_neg (show ¬ n < 365 by omega), if_pos h]
        exact ⟨500, rfl, h⟩
      rw [if_neg (show ¬ n < 5 by omega), if_neg (show ¬ n < 10 by omega),
        if_neg (show ¬ n < 25 by omega), if_neg (show ¬ n < 50 by omega),
        if_neg (show ¬ n < 100 by omega), if_neg (show ¬ n < 200 by omega),
        if_neg (show ¬ n < 365 by omega), if_neg (show ¬ n < 500 by omega), if_pos hlt]
      exact ⟨1000, rfl, hlt⟩
    rcases hsome with ⟨M, hfa, hnM⟩
    have hmm : (getDaysUntilNextMilestone n).milestone = M := by
      rw [milestone_getD, hfa, Option.getD_some]
    rw [hmm]
    exact ⟨hlt, hfa, hnM⟩
  · right
    have hfa : firstAbove n milestones = none := by
      simp only [milestones, firstAbove]
      rw [if_neg (show ¬ n < 5 by omega), if_neg (show ¬ n < 10 by omega),
        if_neg (show ¬ n < 25 by omega), if_neg (show ¬ n < 50 by omega),
        if_neg (show ¬ n < 100 by omega), if_neg (show ¬ n < 200 by omega),
        if_neg (show ¬ n < 365 by omega), if_neg (show ¬ n < 500 by omega),
        if_neg (show ¬ n < 1000 by omega)]
    have hmm : (getDaysUntilNextMilestone n).milestone = ((n + 99) / 100) * 100 := by
      rw [milestone_getD, hfa, Option.getD_none]
    rw [hmm]
    refine ⟨hge, Nat.mul_mod_left _ _, ?_, ?_⟩
    · omega
    · omega

/-- C10: for the empty entry collection `isStreakActive` returns `false`
(handled by the explicit empty-input guard, not an error). -/
theorem isStreakActive_empty_false (today : Int) : isStreakActive [] today = false := rfl

/-- C7: `calculateStreaks` maps the empty collection to the zero record
`{currentStreak := 0, longestStreak := 0, lastEntryDate := none,
streakDates := []}`, and in general `lastEntryDate` equals the most recent
entry day (`none` exactly when there are no entries, since
`mostRecentEntryDay` is `none` only then). -/
theorem calculateStreaks_empty_and_lastEntryDate (entries : List JournalEntry) (today : Int) :
    (calculateStreaks entries today).lastEntryDate = mostRecentEntryDay entries
    ∧ calculateStreaks [] today
        = { currentStreak := 0, longestStreak := 0, lastEntryDate := none, streakDates := [] } := by
  refine ⟨?_, rfl⟩
  cases he : entries.isEmpty with
  | true =>
    obtain rfl : entries = [] := eq_nil_of_isEmpty he
    rfl
  | false =>
    rw [calculateStreaks_fields today he]
    exact head_getUniqueDates_eq_mostRecent entries he

/-- C3: for every entry collection and reference day, the current streak never
exceeds the longest streak. -/
theorem currentStreak_le_longestStreak (entries : List JournalEntry) (today : Int) :
    (calculateStreaks entries today).currentStreak
      ≤ (calculateStreaks entries today).longestStreak := by
  cases he : entries.isEmpty with
  | true =>
    obtain rfl : entries = [] := eq_nil_of_isEmpty he
    exact le_refl 0
  | false =>
    rw [calculateStreaks_fields today he]
    show (calculateCurrentStreak (getUniqueDates entries) today).streak
        ≤ findLongestStreak (getUniqueDates entries)
    have hsd : strictDesc (getUniqueDates entries) = true := getUniqueDates_strictDesc entries
    rw [streak_eq_specWalk, findLongestStreak_eq_maxRunRec,
      maxRunRec_eq_specLongestRun (getUniqueDates entries) hsd]
    rcases Nat.eq_zero_or_pos (specWalk (getUniqueDates entries)
        (if (getUniqueDates entries).contains today then today
         else addDays today (-1))) with hz | hpos
    · rw [hz]
      exact Nat.zero_le _
    · unfold specWalk at hpos ⊢
      have hmem : (if (getUniqueDates entries).contains today then today
          else addDays today (-1)) ∈ getUniqueDates entries :=
        contains_iff_mem.mp (specWalkAux_pos_iff.mp hpos).1
      unfold specLongestRun specWalk
      exact @foldr_max_le_of_mem
        (fun s => specWalkAux (getUniqueDates entries) s (getUniqueDates entries).length)
        (getUniqueDates entries) _ hmem

/-- C4: `streakDates` has length `currentStreak`, is ascending and contiguous
(each day is the previous plus one), consists only of recorded entry days, and
ends at the anchor day (today, or yesterday when there is no entry today)
whenever the streak is nonempty — it is exactly the day range of the current
streak. -/
theorem streakDates_shape (entries : List JournalEntry) (today : Int) :
    (calculateStreaks entries today).streakDates.length
        = (calculateStreaks entries today).currentStreak
    ∧ ascendingContiguous (calculateStreaks entries today).streakDates = true
    ∧ (calculateStreaks entries today).streakDates.all
        (fun d => (getUniqueDates entries).contains d) = true
    ∧ (calculateStreaks entries today).streakDates.getLast?
        = (if (calculateStreaks entries today).currentStreak = 0 then none
           else some (if (getUniqueDates entries).contains today then today
                      else addDays today (-1))) := by
  cases he : entries.isEmpty with
  | true =>
    obtain rfl : entries = [] := eq_nil_of_isEmpty he
    exact ⟨rfl, rfl, rfl, rfl⟩
  | false =>
    rw [calculateStreaks_fields today he]
    exact calculateCurrentStreak_shape (getUniqueDates entries) today

/-- C5: the current-streak walk is anchored at today when the day list
contains today and at yesterday otherwise (the grace-period rule), and when
the list contains neither today nor yesterday the result is streak 0 with an
empty date list, regardless of any older days. -/
theorem currentStreak_anchor_and_grace (ds : List Int) (today : Int) :
    (calculateCurrentStreak ds today).streak
        = specWalk ds (if ds.contains today then today else addDays today (-1))
    ∧ (ds.contains today = false → ds.contains (addDays today (-1)) = false →
        (calculateCurrentStreak ds today).streak = 0
          ∧ (calculateCurrentStreak ds today).dates = []) := by
  refine ⟨streak_eq_specWalk ds today, ?_⟩
  intro h1 h2
  have hzero : (calculateCurrentStreak ds today).streak = 0 := by
    rw [streak_eq_specWalk, if_neg (show ¬ ds.contains today = true by rw [h1]; simp)]
    unfold specWalk
    exact specWalkAux_not_mem h2 ds.length
  refine ⟨hzero, ?_⟩
  have hlen := (calculateCurrentStreak_shape ds today).1
  rw [hzero] at hlen
  exact List.length_eq_zero.mp hlen

/-- Witness for C5 at a concrete input: the list `[100, 99, 42]` contains
neither the reference day 200 nor 199, so the current streak is 0 with no
dates, despite the older consecutive days 100 and 99. -/
theorem currentStreak_anchor_and_grace_witness :
    (calculateCurrentStreak [100, 99, 42] 200).streak = 0
    ∧ (calculateCurrentStreak [100, 99, 42] 200).dates = [] :=
  (currentStreak_anchor_and_grace [100, 99, 42] 200).2 (by decide) (by decide)

/-- C6: on a strictly descending unique day list, `findLongestStreak` returns
the maximum run length of calendar-consecutive days anywhere in the list (the
best backward walk starting from any member), and the result is at least 1
when the list is nonempty (and `min 1 length` is 0 for the empty list, whose
result is 0 by the first conjunct). -/
theorem findLongestStreak_correct (ds : List Int) (h : strictDesc ds = true) :
    findLongestStreak ds = specLongestRun ds
    ∧ Nat.min 1 ds.length ≤ findLongestStreak ds := by
  refine ⟨by rw [findLongestStreak_eq_maxRunRec, maxRunRec_eq_specLongestRun ds h], ?_⟩
  cases ds with
  | nil => exact Nat.zero_le _
  | cons a t =>
    rw [findLongestStreak_eq_maxRunRec]
    have h1 := headRun_pos a t
    have h2 : maxRunRec (a :: t) = Nat.max (headRun (a :: t)) (maxRunRec t) := rfl
    have h3 : Nat.min 1 (a :: t).length = 1 :=
      Nat.min_eq_left (by simp only [List.length_cons]; omega)
    rw [h2, h3]
    exact le_trans h1 (Nat.le_max_left _ _)

/-- Witness for C6 at a concrete input: `[10, 9, 5, 4, 3]` is strictly
descending, its longest streak is the run `5, 4, 3`, and the result agrees
with the spec-side maximum-run computation. -/
theorem findLongestStreak_correct_witness :
    findLongestStreak [10, 9, 5, 4, 3] = specLongestRun [10, 9, 5, 4, 3]
    ∧ Nat.min 1 ([10, 9, 5, 4, 3] : List Int).length ≤ findLongestStreak [10, 9, 5, 4, 3] :=
  findLongestStreak_correct [10, 9, 5, 4, 3] (by decide)

/-- C8: `isStreakActive` is true exactly when `calculateStreaks` reports a
positive current streak — both reduce to the presence of an entry on today or
yesterday, even though `isStreakActive` re-derives this from the raw entries
without dedup or sort. -/
theorem isStreakActive_iff_currentStreak_pos (entries : List JournalEntry) (today : Int) :
    isStreakActive entries today = true
      ↔ 0 < (calculateStreaks entries today).currentStreak := by
  cases he : entries.isEmpty with
  | true =>
    obtain rfl : entries = [] := eq_nil_of_isEmpty he
    constructor
    · intro h; cases h
    · intro h; cases h
  | false =>
    rw [calculateStreaks_fields today he]
    show isStreakActive entries today = true
        ↔ 0 < (calculateCurrentStreak (getUniqueDates entries) today).streak
    rw [streak_eq_specWalk]
    unfold specWalk
    rw [specWalkAux_pos_iff]
    have hActive : isStreakActive entries today
        = ((entries.map (fun e => toDateString e.createdAt)).contains today
            || (entries.map (fun e => toDateString e.createdAt)).contains (addDays today (-1))) := by
      unfold isStreakActive
      rw [if_neg (show ¬ entries.isEmpty = true by rw [he]; simp)]
    have hlen : 0 < (getUniqueDates entries).length := by
      obtain ⟨e, es, rfl⟩ := exists_cons_of_not_isEmpty he
      have hmem : toDateString e.createdAt ∈ getUniqueDates (e :: es) :=
        mem_getUniqueDates.mpr (by simp)
      exact List.length_pos.mpr (List.ne_nil_of_mem hmem)
    have hbt := contains_getUniqueDates entries today
    have hby := contains_getUniqueDates entries (addDays today (-1))
    rw [hActive, ← hbt, ← hby]
    cases hct : (getUniqueDates entries).contains today with
    | true =>
      have hite : (if (true : Bool) = true then today else addDays today (-1)) = today :=
        if_pos rfl
      rw [hite]
      constructor
      · intro _
        exact ⟨hct, hlen⟩
      · intro _
        rfl
    | false =>
      have hite : (if (false : Bool) = true then today else addDays today (-1))
          = addDays today (-1) := if_neg (by simp)
      rw [hite]
      constructor
      · intro hy
        refine ⟨?_, hlen⟩
        simpa using hy
      · intro hy
        simpa using hy.1

/-- C2 (counterexample): with an entry today (day 20000) and a future-dated
entry on day 20005, `isStreakActive` is true although the most recent entry
day is neither today nor yesterday, so the claimed equivalence with the most
recent entry day fails as stated. -/
theorem isStreakActive_most_recent_counterexample :
    ¬ (isStreakActive [⟨"a", 1728000000000⟩, ⟨"b", 1728432000000⟩] 20000 = true
        ↔ (mostRecentEntryDay [⟨"a", 1728000000000⟩, ⟨"b", 1728432000000⟩] = some 20000
            ∨ mostRecentEntryDay [⟨"a", 1728000000000⟩, ⟨"b", 1728432000000⟩]
                = some (addDays 20000 (-1)))) := by
  decide

/-- C2 (amended): when no entry is dated after the reference day (entries are
creation timestamps, so this is the intended situation), `isStreakActive` is
true exactly when the most recent entry day is today or yesterday; for a
collection with a future-dated entry the code instead tests whether any
entry day is today or yesterday. -/
theorem isStreakActive_iff_recent_day (entries : List JournalEntry) (today : Int)
    (hpast : entries.all (fun e => toDateString e.createdAt ≤ today) = true) :
    isStreakActive entries today = true
      ↔ (mostRecentEntryDay entries = some today
          ∨ mostRecentEntryDay entries = some (addDays today (-1))) := by
  cases he : entries.isEmpty with
  | true =>
    obtain rfl : entries = [] := eq_nil_of_isEmpty he
    constructor
    · intro h; cases h
    · intro h
      rcases h with h | h <;> exact Option.noConfusion h
  | false =>
    obtain ⟨e, es, rfl⟩ := exists_cons_of_not_isEmpty he
    have hActive : isStreakActive (e :: es) today
        = (((e :: es).map (fun x => toDateString x.createdAt)).contains today
            || ((e :: es).map (fun x => toDateString x.createdAt)).contains
                (addDays today (-1))) := by
      unfold isStreakActive
      rw [if_neg (show ¬ (e :: es).isEmpty = true by simp)]
    have hdays : (e :: es).map (fun x => toDateString x.createdAt)
        = toDateString e.createdAt :: es.map (fun x => toDateString x.createdAt) := rfl
    rcases mostRecentDay_cons_some (toDateString e.createdAt)
        (es.map (fun x => toDateString x.createdAt)) with ⟨M, hM⟩
    have hM' : mostRecentDay ((e :: es).map (fun x => toDateString x.createdAt)) = some M := by
      rw [hdays]; exact hM
    have hMR : mostRecentEntryDay (e :: es) = some M := hM'
    rcases mostRecentDay_bound hM' with ⟨hMmem, hMub⟩
    have hub : ∀ x ∈ (e :: es).map (fun x => toDateString x.createdAt), x ≤ today := by
      intro x hx
      rcases List.mem_map.mp hx with ⟨e', he', rfl⟩
      have := List.all_eq_true.mp hpast e' he'
      simpa using this
    have hyest : addDays today (-1) = today - 1 := by
      show today + (-1) = today - 1
      ring
    rw [hActive, hMR]
    constructor
    · intro hor
      by_cases hty : today ∈ (e :: es).map (fun x => toDateString x.createdAt)
      · left
        have h1 : today ≤ M := hMub today hty
        have h2 : M ≤ today := hub M hMmem
        rw [le_antisymm h1 h2]
      · right
        have hyB : (addDays today (-1)) ∈ (e :: es).map (fun x => toDateString x.createdAt) := by
          rcases (Bool.or_eq_true _ _).mp hor with h | h
          · exact absurd (contains_iff_mem.mp h) hty
          · exact contains_iff_mem.mp h
        have h1 : addDays today (-1) ≤ M := hMub _ hyB
        have h2 : M ≤ today := hub M hMmem
        have h3 : M ≠ today := by
          intro hMt
          rw [hMt] at hMmem
          exact hty hMmem
        have : M = addDays today (-1) := by
          rw [hyest] at h1 ⊢
          omega
        rw [this]
    · intro hor
      rcases hor with h | h
      · have : today ∈ (e :: es).map (fun x => toDateString x.createdAt) := by
          injection h with h
          rw [← h]
          exact hMmem
        exact (Bool.or_eq_true _ _).mpr (Or.inl (contains_iff_mem.mpr this))
      · have : addDays today (-1) ∈ (e :: es).map (fun x => toDateString x.createdAt) := by
          injection h with h
          rw [← h]
          exact hMmem
        exact (Bool.or_eq_true _ _).mpr (Or.inr (contains_iff_mem.mpr this))

/-- Witness for C2 at a concrete input: a single entry on day 19999 with
reference day 20000 (the entry is not in the future), where the streak is
active and the most recent entry day is yesterday. -/
theorem isStreakActive_iff_recent_day_witness :
    isStreakActive [⟨"a", 1727913600000⟩] 20000 = true
      ↔ (mostRecentEntryDay [⟨"a", 1727913600000⟩] = some 20000
          ∨ mostRecentEntryDay [⟨"a", 1727913600000⟩] = some (addDays 20000 (-1))) :=
  isStreakActive_iff_recent_day [⟨"a", 1727913600000⟩] 20000 (by decide)

/-- C9: the engine attributes each entry to the UTC calendar day of its
timestamp: `getUniqueDates` is exactly the sorted dedup of the
`toDateString` images of the entries, an instant during local day `d` in the
UTC frame itself (offset 0) is counted under day `d`, and a late-night
instant (minute `m` of day `d`) in a zone `o` minutes behind UTC with
`m + o ≥ 1440` is counted under the following day `d + 1`. -/
theorem utc_day_attribution (entries : List JournalEntry) (d m o : Int)
    (hm0 : 0 ≤ m) (hm1 : m < 1440) (ho0 : 0 < o) (ho1 : o < 1440)
    (hlate : 1440 ≤ m + o) :
    getUniqueDates entries
        = ((entries.map (fun e => toDateString e.createdAt)).dedup).insertionSort (· ≥ ·)
    ∧ toDateString (localInstant d m 0) = d
    ∧ toDateString (localInstant d m o) = d + 1 := by
  refine ⟨rfl, ?_, ?_⟩
  · unfold toDateString localInstant
    omega
  · unfold toDateString localInstant
    omega

/-- Witness for C9 at a concrete input: minute 1410 (23:30 local) of day
20000 in a zone 180 minutes behind UTC falls on UTC day 20001, while the same
wall-clock instant in the UTC frame itself falls on day 20000. -/
theorem utc_day_attribution_witness :
    getUniqueDates []
        = ((([] : List JournalEntry).map (fun e => toDateString e.createdAt)).dedup).insertionSort
            (· ≥ ·)
    ∧ toDateString (localInstant 20000 1410 0) = 20000
    ∧ toDateString (localInstant 20000 1410 180) = 20001 :=
  utc_day_attribution [] 20000 1410 180 (by decide) (by decide) (by decide) (by decide) (by decide)

/-- Witness for C8 at a concrete input: one entry on day 19999 with reference
day 20000 — the streak is active and the current streak is positive. -/
theorem isStreakActive_iff_currentStreak_pos_witness :
    isStreakActive [⟨"a", 1727913600000⟩] 20000 = true
      ↔ 0 < (calculateStreaks [⟨"a", 1727913600000⟩] 20000).currentStreak :=
  isStreakActive_iff_currentStreak_pos [⟨"a", 1727913600000⟩] 20000
